import Mathlib

/-!
Verification of the AssetPulse risk-scoring, RUL-simulation and
budget-constrained maintenance-scheduling engine of the
MACAD-Thesis-MEP-Graph repository.

The equipment graph is a directed hierarchy of electrical distribution
components.  The risk scorer follows the code block in
`project_paper3.md` ("Risk Assessment"):

    propagated_power = graph.nodes[node].get('propagated_power', 0) or 0
    norm_power = propagated_power / total_load if total_load else 0
    descendants_count = filtered_descendants_count(graph, node)
    norm_descendants = descendants_count / max_descendants
    risk = (norm_power + norm_descendants) / 2

The RUL model, the monthly scheduler and the simulation driver are not
shipped in the repository (only their documentation is); they are
modelled from the specification, as marked on each definition.
Rational numbers stand in for Python floats; dates are modelled at
month granularity as integers.
-/

/-- One equipment node of the building graph.  Mirrors the node
attributes of the data model: identifier, `type`, `propagated_power`
(`none` models an absent attribute or `None`), `current_condition`,
installation date (as a month index), `expected_lifespan` (years),
and the derived per-snapshot fields written by the engine. -/
structure EquipNode where
  nid : String
  etype : String
  propagated_power : Option ℚ
  currentCondition : ℚ
  installMonth : ℤ
  expectedLifespan : ℚ
  deferredTaskCount : ℕ
  riskScore : ℚ
  rulYears : ℚ
  riskLevel : String
deriving DecidableEq

/-- The directed equipment graph: nodes plus directed edges
(source id, target id), encoding the distribution hierarchy. -/
structure MepGraph where
  nodes : List EquipNode
  edges : List (String × String)
deriving DecidableEq

/-- `graph.nodes[node].get('propagated_power', 0) or 0` from the risk
snippet: an absent attribute or a falsy value (`None`, `0`) is treated
as `0`. -/
def effPropagatedPower (n : EquipNode) : ℚ :=
  n.propagated_power.getD 0

/-- Look a node up by identifier. -/
def lookupNode (g : MepGraph) (v : String) : Option EquipNode :=
  g.nodes.find? (fun n => n.nid == v)

/-- Whether a node id denotes an end load (a terminal load, excluded
from the filtered descendant count). -/
def isEndLoad (g : MepGraph) (v : String) : Bool :=
  match lookupNode g v with
  | some n => n.etype == "end_load"
  | none => false

/-- Direct successors of `v` along the directed edges. -/
def succsOf (edges : List (String × String)) (v : String) : List String :=
  (edges.filter (fun e => e.fst == v)).map Prod.snd

/-- One expansion step of the reachable set. -/
def expandReach (edges : List (String × String)) (seen : List String) : List String :=
  (seen ++ seen.flatMap (succsOf edges)).dedup

/-- Iterated expansion of the reachable set. -/
def reachIter (edges : List (String × String)) : ℕ → List String → List String
  | 0, seen => seen
  | k + 1, seen => reachIter edges k (expandReach edges seen)

/-- All directed descendants of `v` (nodes reachable from `v`,
excluding `v` itself), as in `networkx.descendants`. -/
def descendantsOf (g : MepGraph) (v : String) : List String :=
  ((reachIter g.edges g.nodes.length (succsOf g.edges v)).dedup).filter (fun u => u != v)

/-- `filtered_descendants_count`: the number of downstream equipment
nodes, excluding end loads, so that scores reflect criticality of
distribution infrastructure. -/
def filtered_descendants_count (g : MepGraph) (v : String) : ℕ :=
  ((descendantsOf g v).filter (fun u => !isEndLoad g u)).length

/-- `max_descendants`: the largest filtered descendant count over all
nodes of the graph. -/
def max_descendants (g : MepGraph) : ℕ :=
  (g.nodes.map (fun n => filtered_descendants_count g n.nid)).foldr max 0

/-- Modelled from the spec: `total_load` ("total system load") is not
computed in any code shipped in the repository; the root of the
hierarchy sees the full system load, so it equals the largest
propagated load in the graph. -/
def total_load (g : MepGraph) : ℚ :=
  (g.nodes.map effPropagatedPower).foldr max 0

/-- `norm_power = propagated_power / total_load if total_load else 0`:
the snippet guards the division by a falsy (zero) total load. -/
def norm_power (g : MepGraph) (n : EquipNode) : ℚ :=
  if total_load g = 0 then 0 else effPropagatedPower n / total_load g

/-- `norm_descendants = descendants_count / max_descendants` (the
snippet performs this division unguarded). -/
def norm_descendants (g : MepGraph) (v : String) : ℚ :=
  (filtered_descendants_count g v : ℚ) / (max_descendants g : ℚ)

/-- `risk = (norm_power + norm_descendants) / 2` per the snippet.
In the source the division `descendants_count / max_descendants` is
unguarded, so a graph with `max_descendants = 0` raises
`ZeroDivisionError`; that failure is modelled as `none`. -/
def riskScoreOf (g : MepGraph) (n : EquipNode) : Option ℚ :=
  if max_descendants g = 0 then none
  else some ((norm_power g n + norm_descendants g n.nid) / 2)

/-- Every member of a list is bounded by the `foldr max` of the list. -/
theorem mem_le_foldr_max {α : Type} [LinearOrder α] (z : α) :
    ∀ (l : List α) (a : α), a ∈ l → a ≤ l.foldr max z := by
  intro l
  induction l with
  | nil => intro a h; cases h
  | cons b l ih =>
    intro a h
    rcases List.mem_cons.mp h with h1 | h2
    · subst h1; exact le_max_left _ _
    · exact le_trans (ih a h2) (le_max_right _ _)

/-- The seed of a `foldr max` bounds the result from below. -/
theorem init_le_foldr_max {α : Type} [LinearOrder α] (z : α) :
    ∀ l : List α, z ≤ l.foldr max z := by
  intro l
  induction l with
  | nil => exact le_rfl
  | cons b l ih => exact le_trans ih (le_max_right _ _)

/-- The total load is nonnegative. -/
theorem total_load_nonneg (g : MepGraph) : 0 ≤ total_load g :=
  init_le_foldr_max 0 _

/-- A member node's effective propagated power is at most the total load. -/
theorem effPower_le_total_load (g : MepGraph) (n : EquipNode) (h : n ∈ g.nodes) :
    effPropagatedPower n ≤ total_load g :=
  mem_le_foldr_max 0 _ _ (List.mem_map_of_mem effPropagatedPower h)

/-- A member node's filtered descendant count is at most `max_descendants`. -/
theorem filtered_count_le_max (g : MepGraph) (n : EquipNode) (h : n ∈ g.nodes) :
    filtered_descendants_count g n.nid ≤ max_descendants g :=
  mem_le_foldr_max 0 _ _ (List.mem_map_of_mem (fun m => filtered_descendants_count g m.nid) h)

/-- C2: for every graph and every node of it (with nonnegative
propagated powers, and a well-defined maximum descendant count), the
risk scorer returns `risk = (norm_power + norm_descendants) / 2`, where
`norm_power` is the node's propagated power over the total system load
(`0` when the total load is `0`) and `norm_descendants` is the filtered
non-end-load descendant count over the maximum such count, and the
result lies in `[0, 1]`. -/
theorem risk_formula_in_unit_interval (g : MepGraph) (n : EquipNode)
    (hmem : n ∈ g.nodes)
    (hpow : ∀ m ∈ g.nodes, 0 ≤ effPropagatedPower m)
    (hmax : max_descendants g ≠ 0) :
    riskScoreOf g n = some ((norm_power g n + norm_descendants g n.nid) / 2) ∧
    0 ≤ (norm_power g n + norm_descendants g n.nid) / 2 ∧
    (norm_power g n + norm_descendants g n.nid) / 2 ≤ 1 := by
  refine ⟨by simp [riskScoreOf, hmax], ?_, ?_⟩
  · have hnp : 0 ≤ norm_power g n := by
      unfold norm_power
      by_cases h0 : total_load g = 0
      · simp [h0]
      · have hT : 0 < total_load g := lt_of_le_of_ne (total_load_nonneg g) (Ne.symm h0)
        simp only [h0, if_false]
        exact div_nonneg (hpow n hmem) (le_of_lt hT)
    have hnd : 0 ≤ norm_descendants g n.nid := by
      unfold norm_descendants
      have hMpos : (0 : ℚ) < (max_descendants g : ℚ) := by
        exact_mod_cast Nat.pos_of_ne_zero hmax
      exact div_nonneg (by positivity) (le_of_lt hMpos)
    linarith
  · have hnp : norm_power g n ≤ 1 := by
      unfold norm_power
      by_cases h0 : total_load g = 0
      · simp [h0]
      · have hT : 0 < total_load g := lt_of_le_of_ne (total_load_nonneg g) (Ne.symm h0)
        simp only [h0, if_false]
        exact (div_le_one hT).mpr (effPower_le_total_load g n hmem)
    have hnd : norm_descendants g n.nid ≤ 1 := by
      unfold norm_descendants
      have hMpos : (0 : ℚ) < (max_descendants g : ℚ) := by
        exact_mod_cast Nat.pos_of_ne_zero hmax
      refine (div_le_one hMpos).mpr ?_
      exact_mod_cast filtered_count_le_max g n hmem
    linarith

/-- A two-node graph used as a concrete input: a panelboard feeding a
switchboard, so the maximum filtered descendant count is `1`. -/
def pairNodeA : EquipNode :=
  { nid := "A", etype := "panelboard", propagated_power := some 5,
    currentCondition := 1, installMonth := 0, expectedLifespan := 20,
    deferredTaskCount := 0, riskScore := 0, rulYears := 20, riskLevel := "LOW" }

/-- Second node of the two-node graph. -/
def pairNodeB : EquipNode :=
  { nid := "B", etype := "switchboard", propagated_power := some 3,
    currentCondition := 1, installMonth := 0, expectedLifespan := 25,
    deferredTaskCount := 0, riskScore := 0, rulYears := 25, riskLevel := "LOW" }

/-- The two-node graph `A → B`. -/
def pairGraph : MepGraph :=
  { nodes := [pairNodeA, pairNodeB], edges := [("A", "B")] }

/-- Witness for C2 at the concrete two-node graph. -/
theorem risk_formula_in_unit_interval_witness :
    riskScoreOf pairGraph pairNodeA =
      some ((norm_power pairGraph pairNodeA + norm_descendants pairGraph pairNodeA.nid) / 2) ∧
    0 ≤ (norm_power pairGraph pairNodeA + norm_descendants pairGraph pairNodeA.nid) / 2 ∧
    (norm_power pairGraph pairNodeA + norm_descendants pairGraph pairNodeA.nid) / 2 ≤ 1 :=
  risk_formula_in_unit_interval pairGraph pairNodeA (by decide) (by decide) (by decide)

/-- A single isolated node: the graph has no distribution descendants
anywhere, so `max_descendants = 0`. -/
def soloNode : EquipNode :=
  { nid := "S", etype := "panelboard", propagated_power := some 5,
    currentCondition := 1, installMonth := 0, expectedLifespan := 20,
    deferredTaskCount := 0, riskScore := 0, rulYears := 20, riskLevel := "LOW" }

/-- The one-node graph with no edges. -/
def soloGraph : MepGraph := { nodes := [soloNode], edges := [] }

/-- C7: on a graph whose maximum filtered descendant count is `0` the
scorer produces no result — the source divides `descendants_count` by
`max_descendants` unguarded, so `ZeroDivisionError` is raised instead
of yielding `norm_descendants = 0`. -/
theorem risk_fails_on_zero_max_descendants :
    max_descendants soloGraph = 0 ∧ riskScoreOf soloGraph soloNode = none := by
  decide

/-- C10: a node whose `propagated_power` is absent or falsy is scored
with effective power `0`, its `norm_power` contribution is `0`, and
scoring still succeeds (whenever the scorer succeeds at all, i.e. the
maximum descendant count is nonzero). -/
theorem missing_power_scores_zero (g : MepGraph) (n : EquipNode)
    (hp : n.propagated_power = none) :
    effPropagatedPower n = 0 ∧ norm_power g n = 0 ∧
    (max_descendants g ≠ 0 →
      riskScoreOf g n = some ((0 + norm_descendants g n.nid) / 2)) := by
  have he : effPropagatedPower n = 0 := by simp [effPropagatedPower, hp]
  have hn : norm_power g n = 0 := by
    unfold norm_power
    by_cases h0 : total_load g = 0
    · simp [h0]
    · simp [h0, he]
  exact ⟨he, hn, fun hmax => by simp [riskScoreOf, hmax, hn]⟩

/-- A copy of the two-node graph whose head node carries no
`propagated_power` attribute. -/
def noPowerNode : EquipNode :=
  { nid := "A", etype := "panelboard", propagated_power := none,
    currentCondition := 1, installMonth := 0, expectedLifespan := 20,
    deferredTaskCount := 0, riskScore := 0, rulYears := 20, riskLevel := "LOW" }

/-- The two-node graph `A → B` with `A` lacking propagated power. -/
def noPowerGraph : MepGraph :=
  { nodes := [noPowerNode, pairNodeB], edges := [("A", "B")] }

/-- Witness for C10 at the concrete two-node graph. -/
theorem missing_power_scores_zero_witness :
    effPropagatedPower noPowerNode = 0 ∧ norm_power noPowerGraph noPowerNode = 0 ∧
    (max_descendants noPowerGraph ≠ 0 →
      riskScoreOf noPowerGraph noPowerNode =
        some ((0 + norm_descendants noPowerGraph noPowerNode.nid) / 2)) :=
  missing_power_scores_zero noPowerGraph noPowerNode (by decide)

/-- A maintenance or repair/replacement task instance bound to one
equipment node.  Modelled from the spec: carries the template fields
used by the scheduler (`default_priority`, `time_cost`, `money_cost`,
`is_replacement`, `recommended_frequency_months`, condition
improvement) plus the mutable scheduling state (`next_due_date` as a
month index, `deferred_count`). -/
structure MaintTask where
  taskInstanceId : String
  equipmentId : String
  priority : ℤ
  timeCost : ℚ
  moneyCost : ℚ
  isReplacement : Bool
  nextDueDate : ℤ
  deferredCount : ℕ
  frequencyMonths : ℤ
  conditionImprovement : ℚ
deriving DecidableEq

/-- Modelled from the spec (§4.4 step 2): the sort key
`(is_replacement desc, priority asc, owning node's risk_score desc)`,
as a lexicographic triple (replacement tasks rank first, lower
priority numbers rank first, higher risk ranks first). -/
def sortKey (riskOf : String → ℚ) (t : MaintTask) : ℚ ×ₗ ℚ ×ₗ ℚ :=
  toLex ((if t.isReplacement then 0 else 1),
    toLex ((t.priority : ℚ), -riskOf t.equipmentId))

/-- Candidate ordering: `t` is scheduled no later than `u`. -/
def candBefore (riskOf : String → ℚ) (t u : MaintTask) : Prop :=
  sortKey riskOf t ≤ sortKey riskOf u

instance (riskOf : String → ℚ) : DecidableRel (candBefore riskOf) := fun t u =>
  inferInstanceAs (Decidable (sortKey riskOf t ≤ sortKey riskOf u))

instance (riskOf : String → ℚ) : IsTotal MaintTask (candBefore riskOf) :=
  ⟨fun t u => le_total (sortKey riskOf t) (sortKey riskOf u)⟩

instance (riskOf : String → ℚ) : IsTrans MaintTask (candBefore riskOf) :=
  ⟨fun _ _ _ h1 h2 => le_trans h1 h2⟩

/-- Modelled from the spec: the monthly candidate list sorted by
`(is_replacement desc, priority asc, node.risk_score desc)`. -/
def sortCandidates (riskOf : String → ℚ) (l : List MaintTask) : List MaintTask :=
  List.insertionSort (candBefore riskOf) l

/-- Modelled from the spec (§4.4 step 3): walk the sorted candidates in
order, recording for each one whether it is admitted (both cumulative
costs stay within the budgets) or skipped; a skipped candidate does not
stop later, cheaper candidates from being admitted. -/
def greedyDecide (tB mB : ℚ) : List MaintTask → ℚ → ℚ → List (MaintTask × Bool)
  | [], _, _ => []
  | t :: rest, tS, mS =>
    if tS + t.timeCost ≤ tB ∧ mS + t.moneyCost ≤ mB then
      (t, true) :: greedyDecide tB mB rest (tS + t.timeCost) (mS + t.moneyCost)
    else
      (t, false) :: greedyDecide tB mB rest tS mS

/-- The tasks a decision list admits (executes). -/
def admitted (ds : List (MaintTask × Bool)) : List MaintTask :=
  (ds.filter (fun d => d.snd)).map Prod.fst

/-- The tasks a decision list skips (defers). -/
def rejected (ds : List (MaintTask × Bool)) : List MaintTask :=
  (ds.filter (fun d => !d.snd)).map Prod.fst

/-- Total time cost of a task list. -/
def sumTimeCost (l : List MaintTask) : ℚ := (l.map MaintTask.timeCost).sum

/-- Total money cost of a task list. -/
def sumMoneyCost (l : List MaintTask) : ℚ := (l.map MaintTask.moneyCost).sum

/-- Outcome of one month of scheduling: the candidates considered, the
executed tasks, and the deferred tasks. -/
structure ScheduleResult where
  scheduled : List MaintTask
  executed : List MaintTask
  deferred : List MaintTask
deriving DecidableEq

/-- Modelled from the spec (§4.4 steps 2–3): sort the candidate list,
then admit greedily under the month's two budgets. -/
def scheduleMonth (riskOf : String → ℚ) (tB mB : ℚ) (cands : List MaintTask) :
    ScheduleResult :=
  let sorted := sortCandidates riskOf cands
  let ds := greedyDecide tB mB sorted 0 0
  ⟨sorted, admitted ds, rejected ds⟩

/-- The decision list decides exactly the input tasks, in order. -/
theorem greedyDecide_map_fst (tB mB : ℚ) :
    ∀ (l : List MaintTask) (tS mS : ℚ),
      (greedyDecide tB mB l tS mS).map Prod.fst = l := by
  intro l
  induction l with
  | nil => intro tS mS; rfl
  | cons t rest ih =>
    intro tS mS
    unfold greedyDecide
    by_cases h : tS + t.timeCost ≤ tB ∧ mS + t.moneyCost ≤ mB
    · simp [h, ih]
    · simp [h, ih]

/-- A decision flagged `true` contributes its task to the admitted list. -/
theorem admitted_cons_true (u : MaintTask) (ds : List (MaintTask × Bool)) :
    admitted ((u, true) :: ds) = u :: admitted ds := by
  simp [admitted]

/-- A decision flagged `false` does not contribute to the admitted list. -/
theorem admitted_cons_false (u : MaintTask) (ds : List (MaintTask × Bool)) :
    admitted ((u, false) :: ds) = admitted ds := by
  simp [admitted]

/-- A decision flagged `false` contributes its task to the rejected list. -/
theorem rejected_cons_false (u : MaintTask) (ds : List (MaintTask × Bool)) :
    rejected ((u, false) :: ds) = u :: rejected ds := by
  simp [rejected]

/-- A decision flagged `true` does not contribute to the rejected list. -/
theorem rejected_cons_true (u : MaintTask) (ds : List (MaintTask × Bool)) :
    rejected ((u, true) :: ds) = rejected ds := by
  simp [rejected]

/-- Time cost of a cons. -/
theorem sumTimeCost_cons (t : MaintTask) (l : List MaintTask) :
    sumTimeCost (t :: l) = t.timeCost + sumTimeCost l := by
  simp [sumTimeCost]

/-- Money cost of a cons. -/
theorem sumMoneyCost_cons (t : MaintTask) (l : List MaintTask) :
    sumMoneyCost (t :: l) = t.moneyCost + sumMoneyCost l := by
  simp [sumMoneyCost]

/-- Greedy admission characterization: a task's decision flag is `true`
exactly when its cost fits on top of the costs of the candidates
admitted before it. -/
theorem greedyDecide_flag_iff (tB mB : ℚ) :
    ∀ (l : List MaintTask) (tS mS : ℚ) (pre : List (MaintTask × Bool))
      (t : MaintTask) (b : Bool) (post : List (MaintTask × Bool)),
      greedyDecide tB mB l tS mS = pre ++ (t, b) :: post →
      (b = true ↔
        tS + sumTimeCost (admitted pre) + t.timeCost ≤ tB ∧
        mS + sumMoneyCost (admitted pre) + t.moneyCost ≤ mB) := by
  intro l
  induction l with
  | nil =>
    intro tS mS pre t b post h
    simp [greedyDecide] at h
  | cons u rest ih =>
    intro tS mS pre t b post h
    unfold greedyDecide at h
    by_cases hfit : tS + u.timeCost ≤ tB ∧ mS + u.moneyCost ≤ mB
    · rw [if_pos hfit] at h
      cases pre with
      | nil =>
        simp only [List.nil_append, List.cons.injEq, Prod.mk.injEq] at h
        obtain ⟨⟨h1, h2⟩, _⟩ := h
        subst h1; subst h2
        simp only [admitted, List.filter_nil, List.map_nil, sumTimeCost,
          sumMoneyCost, List.sum_nil, add_zero]
        simpa using hfit
      | cons p pre' =>
        simp only [List.cons_append, List.cons.injEq] at h
        obtain ⟨hp, hrest⟩ := h
        subst hp
        have hih := ih (tS + u.timeCost) (mS + u.moneyCost) pre' t b post hrest
        rw [hih, admitted_cons_true, sumTimeCost_cons, sumMoneyCost_cons]
        constructor <;> intro hh <;> exact ⟨by linarith [hh.1], by linarith [hh.2]⟩
    · rw [if_neg hfit] at h
      cases pre with
      | nil =>
        simp only [List.nil_append, List.cons.injEq, Prod.mk.injEq] at h
        obtain ⟨⟨h1, h2⟩, _⟩ := h
        subst h1; subst h2
        simp only [admitted, List.filter_nil, List.map_nil, sumTimeCost,
          sumMoneyCost, List.sum_nil, add_zero]
        constructor
        · intro hcontra; exact absurd hcontra (by decide)
        · intro hh; exact absurd hh hfit
      | cons p pre' =>
        simp only [List.cons_append, List.cons.injEq] at h
        obtain ⟨hp, hrest⟩ := h
        subst hp
        have hih := ih tS mS pre' t b post hrest
        rw [hih, admitted_cons_false]

/-- Budget safety of greedy admission: starting from spent totals within
the budgets, the spent totals including all admitted tasks stay within
the budgets. -/
theorem greedy_budget_safe (tB mB : ℚ) :
    ∀ (l : List MaintTask) (tS mS : ℚ), tS ≤ tB → mS ≤ mB →
      tS + sumTimeCost (admitted (greedyDecide tB mB l tS mS)) ≤ tB ∧
      mS + sumMoneyCost (admitted (greedyDecide tB mB l tS mS)) ≤ mB := by
  intro l
  induction l with
  | nil =>
    intro tS mS h1 h2
    simp only [greedyDecide, admitted, List.filter_nil, List.map_nil,
      sumTimeCost, sumMoneyCost, List.sum_nil, add_zero]
    exact ⟨h1, h2⟩
  | cons u rest ih =>
    intro tS mS h1 h2
    unfold greedyDecide
    by_cases hfit : tS + u.timeCost ≤ tB ∧ mS + u.moneyCost ≤ mB
    · rw [if_pos hfit, admitted_cons_true, sumTimeCost_cons, sumMoneyCost_cons]
      have hih := ih (tS + u.timeCost) (mS + u.moneyCost) hfit.1 hfit.2
      exact ⟨by linarith [hih.1], by linarith [hih.2]⟩
    · rw [if_neg hfit, admitted_cons_false]
      exact ih tS mS h1 h2

/-- The admitted and rejected tasks together are a permutation of the
decided tasks. -/
theorem admitted_append_rejected_perm :
    ∀ ds : List (MaintTask × Bool), (admitted ds ++ rejected ds).Perm (ds.map Prod.fst) := by
  intro ds
  induction ds with
  | nil => simp [admitted, rejected]
  | cons d ds ih =>
    obtain ⟨u, b⟩ := d
    cases b with
    | true =>
      rw [admitted_cons_true, rejected_cons_true, List.map_cons, List.cons_append]
      exact ih.cons u
    | false =>
      rw [admitted_cons_false, rejected_cons_false, List.map_cons]
      exact (List.perm_middle).trans (ih.cons u)

/-- Every admitted task individually fits within the full budgets, when
all costs are nonnegative. -/
theorem mem_admitted_cost_le (tB mB : ℚ) :
    ∀ (l : List MaintTask) (tS mS : ℚ),
      (∀ t ∈ l, 0 ≤ t.timeCost ∧ 0 ≤ t.moneyCost) → 0 ≤ tS → 0 ≤ mS →
      ∀ t ∈ admitted (greedyDecide tB mB l tS mS), t.timeCost ≤ tB ∧ t.moneyCost ≤ mB := by
  intro l
  induction l with
  | nil =>
    intro tS mS _ _ _ t ht
    simp [greedyDecide, admitted] at ht
  | cons u rest ih =>
    intro tS mS hc htS hmS t ht
    unfold greedyDecide at ht
    by_cases hfit : tS + u.timeCost ≤ tB ∧ mS + u.moneyCost ≤ mB
    · rw [if_pos hfit, admitted_cons_true] at ht
      rcases List.mem_cons.mp ht with h1 | h2
      · subst h1
        exact ⟨by linarith [hfit.1], by linarith [hfit.2]⟩
      · exact ih (tS + u.timeCost) (mS + u.moneyCost)
          (fun s hs => hc s (List.mem_cons_of_mem u hs))
          (by linarith [(hc u (List.mem_cons_self u rest)).1])
          (by linarith [(hc u (List.mem_cons_self u rest)).2]) t h2
    · rw [if_neg hfit, admitted_cons_false] at ht
      exact ih tS mS (fun s hs => hc s (List.mem_cons_of_mem u hs)) htS hmS t ht

/-- The scheduled list of a month is the sorted candidate list. -/
theorem scheduleMonth_scheduled (riskOf : String → ℚ) (tB mB : ℚ)
    (cands : List MaintTask) :
    (scheduleMonth riskOf tB mB cands).scheduled = sortCandidates riskOf cands := rfl

/-- The executed list of a month is the admitted part of the greedy walk. -/
theorem scheduleMonth_executed (riskOf : String → ℚ) (tB mB : ℚ)
    (cands : List MaintTask) :
    (scheduleMonth riskOf tB mB cands).executed =
      admitted (greedyDecide tB mB (sortCandidates riskOf cands) 0 0) := rfl

/-- The deferred list of a month is the rejected part of the greedy walk. -/
theorem scheduleMonth_deferred (riskOf : String → ℚ) (tB mB : ℚ)
    (cands : List MaintTask) :
    (scheduleMonth riskOf tB mB cands).deferred =
      rejected (greedyDecide tB mB (sortCandidates riskOf cands) 0 0) := rfl

/-- Executed and deferred tasks together are a permutation of the
scheduled list. -/
theorem scheduleMonth_partition (riskOf : String → ℚ) (tB mB : ℚ)
    (cands : List MaintTask) :
    ((scheduleMonth riskOf tB mB cands).executed ++
      (scheduleMonth riskOf tB mB cands).deferred).Perm
      (scheduleMonth riskOf tB mB cands).scheduled := by
  rw [scheduleMonth_executed, scheduleMonth_deferred, scheduleMonth_scheduled]
  have h := admitted_append_rejected_perm (greedyDecide tB mB (sortCandidates riskOf cands) 0 0)
  rwa [greedyDecide_map_fst] at h

/-- On a duplicate-free scheduled list, every scheduled task is
executed or deferred, and not both. -/
theorem scheduleMonth_executed_xor_deferred (riskOf : String → ℚ) (tB mB : ℚ)
    (cands : List MaintTask)
    (hnd : (scheduleMonth riskOf tB mB cands).scheduled.Nodup) :
    ∀ t ∈ (scheduleMonth riskOf tB mB cands).scheduled,
      (t ∈ (scheduleMonth riskOf tB mB cands).executed ∧
        t ∉ (scheduleMonth riskOf tB mB cands).deferred) ∨
      (t ∉ (scheduleMonth riskOf tB mB cands).executed ∧
        t ∈ (scheduleMonth riskOf tB mB cands).deferred) := by
  intro t ht
  have hperm := scheduleMonth_partition riskOf tB mB cands
  have hnd2 : ((scheduleMonth riskOf tB mB cands).executed ++
      (scheduleMonth riskOf tB mB cands).deferred).Nodup := hperm.symm.nodup hnd
  have hdisj := (List.nodup_append.mp hnd2).2.2
  have htmem : t ∈ (scheduleMonth riskOf tB mB cands).executed ++
      (scheduleMonth riskOf tB mB cands).deferred := hperm.symm.subset ht
  rcases List.mem_append.mp htmem with h1 | h2
  · exact Or.inl ⟨h1, fun h2 => hdisj h1 h2⟩
  · exact Or.inr ⟨fun h1 => hdisj h1 h2, h2⟩

/-- Every executed task was a candidate. -/
theorem mem_executed_mem_cands (riskOf : String → ℚ) (tB mB : ℚ)
    (cands : List MaintTask) (t : MaintTask)
    (h : t ∈ (scheduleMonth riskOf tB mB cands).executed) : t ∈ cands := by
  have hperm := scheduleMonth_partition riskOf tB mB cands
  have := hperm.subset (List.mem_append.mpr (Or.inl h))
  rw [scheduleMonth_scheduled] at this
  exact (List.perm_insertionSort (candBefore riskOf) cands).subset this

/-- Every deferred task was a candidate. -/
theorem mem_deferred_mem_cands (riskOf : String → ℚ) (tB mB : ℚ)
    (cands : List MaintTask) (t : MaintTask)
    (h : t ∈ (scheduleMonth riskOf tB mB cands).deferred) : t ∈ cands := by
  have hperm := scheduleMonth_partition riskOf tB mB cands
  have := hperm.subset (List.mem_append.mpr (Or.inr h))
  rw [scheduleMonth_scheduled] at this
  exact (List.perm_insertionSort (candBefore riskOf) cands).subset this

/-- C4: the monthly scheduler sorts the candidate list by
`(is_replacement desc, priority asc, owning node's risk_score desc)`
and admits candidates greedily in that order: its executed and deferred
lists are exactly the admitted and skipped parts of the greedy walk,
and a candidate's admission flag is `true` exactly when both cumulative
costs stay within the budgets — so a candidate that would breach either
budget is skipped (deferred) even when later, cheaper candidates are
still admitted. -/
theorem scheduler_sort_and_greedy_admission (riskOf : String → ℚ) (tB mB : ℚ)
    (cands : List MaintTask) :
    (scheduleMonth riskOf tB mB cands).scheduled.Perm cands ∧
    List.Sorted (candBefore riskOf) (scheduleMonth riskOf tB mB cands).scheduled ∧
    (scheduleMonth riskOf tB mB cands).executed =
      admitted (greedyDecide tB mB (sortCandidates riskOf cands) 0 0) ∧
    (scheduleMonth riskOf tB mB cands).deferred =
      rejected (greedyDecide tB mB (sortCandidates riskOf cands) 0 0) ∧
    ∀ pre t b post,
      greedyDecide tB mB (sortCandidates riskOf cands) 0 0 = pre ++ (t, b) :: post →
      (b = true ↔ sumTimeCost (admitted pre) + t.timeCost ≤ tB ∧
        sumMoneyCost (admitted pre) + t.moneyCost ≤ mB) := by
  refine ⟨?_, ?_, rfl, rfl, ?_⟩
  · rw [scheduleMonth_scheduled]
    exact List.perm_insertionSort (candBefore riskOf) cands
  · rw [scheduleMonth_scheduled]
    exact List.sorted_insertionSort (candBefore riskOf) cands
  · intro pre t b post h
    have := greedyDecide_flag_iff tB mB (sortCandidates riskOf cands) 0 0 pre t b post h
    simpa using this

/-- A candidate for the scheduler witness: high priority but expensive. -/
def wTaskCostly : MaintTask :=
  { taskInstanceId := "T-EXP", equipmentId := "A", priority := 1,
    timeCost := 10, moneyCost := 10, isReplacement := false,
    nextDueDate := 0, deferredCount := 0, frequencyMonths := 12,
    conditionImprovement := 0 }

/-- A candidate for the scheduler witness: lower priority but cheap. -/
def wTaskCheap : MaintTask :=
  { taskInstanceId := "T-CHP", equipmentId := "B", priority := 2,
    timeCost := 3, moneyCost := 3, isReplacement := false,
    nextDueDate := 0, deferredCount := 0, frequencyMonths := 12,
    conditionImprovement := 0 }

/-- Witness for C4 on a concrete two-candidate month: the costly
higher-priority task is skipped against a budget of 5 while the cheap
later one is still admitted. -/
theorem scheduler_sort_and_greedy_admission_witness :
    (scheduleMonth (fun _ => 0) 5 5 [wTaskCheap, wTaskCostly]).scheduled.Perm
      [wTaskCheap, wTaskCostly] ∧
    (false = true ↔ sumTimeCost (admitted []) + wTaskCostly.timeCost ≤ 5 ∧
      sumMoneyCost (admitted []) + wTaskCostly.moneyCost ≤ 5) := by
  constructor
  · exact (scheduler_sort_and_greedy_admission (fun _ => 0) 5 5 [wTaskCheap, wTaskCostly]).1
  · have hsorted : sortCandidates (fun _ => 0) [wTaskCheap, wTaskCostly] =
        [wTaskCostly, wTaskCheap] := by decide
    have hgreedy : greedyDecide 5 5 (sortCandidates (fun _ => 0) [wTaskCheap, wTaskCostly]) 0 0 =
        [] ++ (wTaskCostly, false) :: [(wTaskCheap, true)] := by
      rw [hsorted]
      norm_num [greedyDecide, wTaskCostly, wTaskCheap]
    have h := (scheduler_sort_and_greedy_admission (fun _ => 0) 5 5
      [wTaskCheap, wTaskCostly]).2.2.2.2 [] wTaskCostly false [(wTaskCheap, true)] hgreedy
    simpa using h

/-- Modelled from the spec: the configuration surface consumed by the
engine (monthly budget allocations, rollover flag, RUL model factors,
risk thresholds and ignored types). -/
structure Config where
  timeBudget : ℚ
  moneyBudget : ℚ
  enableRollover : Bool
  taskDefermentFactor : ℚ
  overdueImpactMultiplier : ℚ
  agingAccelerationFactor : ℚ
  maxAgingMultiplier : ℚ
  minRulRatio : ℚ
  criticalRulThresholdYears : ℚ
  highRulThresholdYears : ℚ
  mediumRulThresholdYears : ℚ
  typesToIgnore : List String
deriving DecidableEq

/-- Elapsed operating time in years, from the installation month to the
current simulated month. -/
def elapsedYears (month installMonth : ℤ) : ℚ :=
  ((month - installMonth : ℤ) : ℚ) / 12

/-- Modelled from the spec (§4.2 step 3): an aging factor that grows
with elapsed operating time, clamped to `MAX_AGING_MULTIPLIER`. -/
def agingFactor (cfg : Config) (elapsed : ℚ) : ℚ :=
  min (1 + cfg.agingAccelerationFactor * elapsed) cfg.maxAgingMultiplier

/-- Modelled from the spec (§4.2 step 4): the floor condition factor
that keeps low condition from zeroing RUL; the constant's value is not
recorded in the repository and is fixed here at `1/10`. -/
def minConditionFactor : ℚ := 1 / 10

/-- Modelled from the spec (§4.2 step 4): condition scaling with floor. -/
def conditionFactor (c : ℚ) : ℚ := max c minConditionFactor

/-- Modelled from the spec (§4.2 steps 1–5): baseline RUL, deferred and
overdue maintenance penalty scaled by the aging factor, condition
adjustment, and the final floor at
`MIN_RUL_RATIO × expected_lifespan`. -/
def computeRulYears (cfg : Config) (lifespan elapsed condition : ℚ)
    (deferredCount overdueCount : ℕ) : ℚ :=
  let baseline := lifespan - elapsed
  let penalty := ((deferredCount : ℚ) * cfg.taskDefermentFactor +
    (overdueCount : ℚ) * cfg.taskDefermentFactor * cfg.overdueImpactMultiplier) *
    agingFactor cfg elapsed
  let adjusted := (baseline - penalty) * conditionFactor condition
  max adjusted (cfg.minRulRatio * lifespan)

/-- Modelled from the spec (§4.2 step 7): risk level from RUL thresholds. -/
def riskLevelOf (cfg : Config) (rul : ℚ) : String :=
  if rul ≤ cfg.criticalRulThresholdYears then "CRITICAL"
  else if rul ≤ cfg.highRulThresholdYears then "HIGH"
  else if rul ≤ cfg.mediumRulThresholdYears then "MEDIUM"
  else "LOW"

/-- Number of a node's tasks that are overdue beyond their frequency
window at the given month. -/
def overdueCountFor (tasks : List MaintTask) (month : ℤ) (v : String) : ℕ :=
  (tasks.filter (fun t =>
    t.equipmentId == v && decide (t.nextDueDate + t.frequencyMonths < month))).length

/-- Modelled from the spec (§4.2): the monthly RUL update of one node;
equipment types in `TYPES_TO_IGNORE` are skipped entirely. -/
def updateNodeRul (cfg : Config) (tasks : List MaintTask) (month : ℤ)
    (n : EquipNode) : EquipNode :=
  if n.etype ∈ cfg.typesToIgnore then n
  else
    let rul := computeRulYears cfg n.expectedLifespan
      (elapsedYears month n.installMonth) n.currentCondition
      n.deferredTaskCount (overdueCountFor tasks month n.nid)
    { n with rulYears := rul, riskLevel := riskLevelOf cfg rul }

/-- Clamp a condition value into `[0, 1]` (the data-model invariant
`current_condition ∈ [0, 1]`). -/
def clamp01 (x : ℚ) : ℚ := min 1 (max 0 x)

/-- Modelled from the spec (§4.4 step 4): an executed task advances its
`next_due_date` by its frequency from the execution date and resets its
`deferred_count`. -/
def execUpdateTask (month : ℤ) (t : MaintTask) : MaintTask :=
  { t with deferredCount := 0, nextDueDate := month + t.frequencyMonths }

/-- Modelled from the spec (§4.4 step 5): a deferred task increments its
`deferred_count` and keeps its `next_due_date` unchanged. -/
def deferUpdateTask (t : MaintTask) : MaintTask :=
  { t with deferredCount := t.deferredCount + 1 }

/-- Apply the month's outcomes to the task backlog. -/
def updateTasksAfterMonth (month : ℤ) (executed deferred tasks : List MaintTask) :
    List MaintTask :=
  tasks.map (fun u =>
    if u ∈ executed then execUpdateTask month u
    else if u ∈ deferred then deferUpdateTask u
    else u)

/-- Modelled from the spec (§4.4 step 4): an executed task improves the
owning node's condition, clamped into `[0, 1]`. -/
def applyExecutedToNode (executed : List MaintTask) (n : EquipNode) : EquipNode :=
  let c2 := executed.foldl
    (fun c t => if t.equipmentId = n.nid then clamp01 (c + t.conditionImprovement) else c)
    n.currentCondition
  { n with currentCondition := c2 }

/-- Modelled from the spec (§4.4 step 5): each deferred task increments
the owning node's `deferred_task_count`. -/
def applyDeferredToNode (deferred : List MaintTask) (n : EquipNode) : EquipNode :=
  { n with deferredTaskCount := n.deferredTaskCount +
      (deferred.filter (fun t => t.equipmentId == n.nid)).length }

/-- The per-month output record (output contract §6): the candidates
considered, budget figures (totals after adding rollover), outcomes,
the updated graph snapshot, and synthetic maintenance logs. -/
structure MonthRecord where
  month : ℤ
  tasksScheduled : List MaintTask
  executedTasks : List MaintTask
  deferredTasks : List MaintTask
  rolloverTimeBudget : ℚ
  rolloverMoneyBudget : ℚ
  timeBudgetTotal : ℚ
  moneyBudgetTotal : ℚ
  graphNodes : List EquipNode
  maintenanceLogs : List (String × ℚ)
deriving DecidableEq

/-- The simulation state threaded from month to month. -/
structure SimState where
  nodes : List EquipNode
  tasks : List MaintTask
  rolloverTime : ℚ
  rolloverMoney : ℚ
  rngIndex : ℕ
deriving DecidableEq

/-- Risk score of the node owning a task, used as sort tie-breaker. -/
def riskLookup (nodes : List EquipNode) (v : String) : ℚ :=
  match nodes.find? (fun n => n.nid == v) with
  | some n => n.riskScore
  | none => 0

/-- Condition of a node, for synthetic log generation. -/
def conditionLookup (nodes : List EquipNode) (v : String) : ℚ :=
  match nodes.find? (fun n => n.nid == v) with
  | some n => n.currentCondition
  | none => 0

/-- Round to one decimal, as `round(..., 1)` in the synthetic log
formula. -/
def round1 (x : ℚ) : ℚ := ((round (10 * x) : ℤ) : ℚ) / 10

/-- Phase 1 of a month: RUL update of every node. -/
def rulPhase (cfg : Config) (month : ℤ) (st : SimState) : List EquipNode :=
  st.nodes.map (updateNodeRul cfg st.tasks month)

/-- Phase 2 of a month: the driver writes each node's risk score; when
the scorer yields no result the previous value is kept. -/
def riskPhase (edges : List (String × String)) (nodes1 : List EquipNode) :
    List EquipNode :=
  nodes1.map (fun n =>
    { n with riskScore := (riskScoreOf ⟨nodes1, edges⟩ n).getD n.riskScore })

/-- The month's candidate list: every task that is due or was deferred
earlier (its `next_due_date` has not advanced past the current month). -/
def monthCandidates (month : ℤ) (st : SimState) : List MaintTask :=
  st.tasks.filter (fun t => decide (t.nextDueDate ≤ month))

/-- The nodes as the scheduler sees them in a given month. -/
def monthNodes (cfg : Config) (edges : List (String × String)) (month : ℤ)
    (st : SimState) : List EquipNode :=
  riskPhase edges (rulPhase cfg month st)

/-- The month's schedule: candidates sorted and admitted greedily under
the month's total budgets (allocation plus rollover). -/
def monthSchedule (cfg : Config) (edges : List (String × String)) (month : ℤ)
    (st : SimState) : ScheduleResult :=
  scheduleMonth (riskLookup (monthNodes cfg edges month st))
    (cfg.timeBudget + st.rolloverTime) (cfg.moneyBudget + st.rolloverMoney)
    (monthCandidates month st)

/-- Synthetic maintenance logs for the month's executed tasks:
`new_condition = round(beta_sample * current_condition, 1)`, the sample
drawn from the injected random stream. -/
def monthLogs (rng : ℕ → ℚ) (startIdx : ℕ) (nodes : List EquipNode)
    (executed : List MaintTask) : List (String × ℚ) :=
  executed.enum.map (fun p =>
    (p.2.equipmentId, round1 (rng (startIdx + p.1) * conditionLookup nodes p.2.equipmentId)))

/-- Modelled from the spec (§2, §4.4, §6): one simulated month — update
RUL and risk, schedule under budgets, apply outcomes to tasks and
nodes, emit synthetic logs, and carry rollover forward when enabled. -/
def stepMonth (cfg : Config) (edges : List (String × String)) (rng : ℕ → ℚ)
    (month : ℤ) (st : SimState) : MonthRecord × SimState :=
  let nodes2 := monthNodes cfg edges month st
  let res := monthSchedule cfg edges month st
  let tB := cfg.timeBudget + st.rolloverTime
  let mB := cfg.moneyBudget + st.rolloverMoney
  let tasks2 := updateTasksAfterMonth month res.executed res.deferred st.tasks
  let nodes3 := nodes2.map (fun n =>
    applyDeferredToNode res.deferred (applyExecutedToNode res.executed n))
  let logs := monthLogs rng st.rngIndex nodes3 res.executed
  let rollT := if cfg.enableRollover then tB - sumTimeCost res.executed else 0
  let rollM := if cfg.enableRollover then mB - sumMoneyCost res.executed else 0
  (⟨month, res.scheduled, res.executed, res.deferred,
      st.rolloverTime, st.rolloverMoney, tB, mB, nodes3, logs⟩,
    ⟨nodes3, tasks2, rollT, rollM, st.rngIndex + res.executed.length⟩)

/-- Iterate `stepMonth` over the remaining months. -/
def runSimAux (cfg : Config) (edges : List (String × String)) (rng : ℕ → ℚ) :
    ℕ → ℤ → SimState → List MonthRecord
  | 0, _, _ => []
  | n + 1, month, st =>
    (stepMonth cfg edges rng month st).1 ::
      runSimAux cfg edges rng n (month + 1) (stepMonth cfg edges rng month st).2

/-- The simulation driver with an explicit random stream injected. -/
def runSimulationWith (rng : ℕ → ℚ) (cfg : Config)
    (edges : List (String × String)) (months : ℕ) (startMonth : ℤ)
    (nodes : List EquipNode) (tasks : List MaintTask) : List MonthRecord :=
  runSimAux cfg edges rng months startMonth ⟨nodes, tasks, 0, 0, 0⟩

/-- Modelled from the spec (§4.5, §9): the stochastic source is an
injectable, seedable stream; the Mersenne-Twister `betavariate` of the
source is stood in for by a pure function of the seed with values in
`[0, 1]`, which is what the determinism property constrains. -/
def seedStream (seed : ℕ) : ℕ → ℚ :=
  fun k => (((seed + 7 * k) % 11 : ℕ) : ℚ) / 10

/-- Modelled from the spec: the full simulation entry point — a fixed
seed selects the random stream, and the state starts with no rollover. -/
def runSimulation (cfg : Config) (edges : List (String × String)) (seed : ℕ)
    (months : ℕ) (startMonth : ℤ) (nodes : List EquipNode)
    (tasks : List MaintTask) : List MonthRecord :=
  runSimulationWith (seedStream seed) cfg edges months startMonth nodes tasks

/-- The month's schedule unfolded to the scheduler entry point. -/
theorem monthSchedule_def (cfg : Config) (edges : List (String × String))
    (month : ℤ) (st : SimState) :
    monthSchedule cfg edges month st =
      scheduleMonth (riskLookup (monthNodes cfg edges month st))
        (cfg.timeBudget + st.rolloverTime) (cfg.moneyBudget + st.rolloverMoney)
        (monthCandidates month st) := rfl

/-- The month record's executed list. -/
theorem stepMonth_executedTasks (cfg : Config) (edges : List (String × String))
    (rng : ℕ → ℚ) (month : ℤ) (st : SimState) :
    (stepMonth cfg edges rng month st).1.executedTasks =
      (monthSchedule cfg edges month st).executed := rfl

/-- The month record's deferred list. -/
theorem stepMonth_deferredTasks (cfg : Config) (edges : List (String × String))
    (rng : ℕ → ℚ) (month : ℤ) (st : SimState) :
    (stepMonth cfg edges rng month st).1.deferredTasks =
      (monthSchedule cfg edges month st).deferred := rfl

/-- The month record's scheduled list. -/
theorem stepMonth_tasksScheduled (cfg : Config) (edges : List (String × String))
    (rng : ℕ → ℚ) (month : ℤ) (st : SimState) :
    (stepMonth cfg edges rng month st).1.tasksScheduled =
      (monthSchedule cfg edges month st).scheduled := rfl

/-- The month record's total time budget. -/
theorem stepMonth_timeBudgetTotal (cfg : Config) (edges : List (String × String))
    (rng : ℕ → ℚ) (month : ℤ) (st : SimState) :
    (stepMonth cfg edges rng month st).1.timeBudgetTotal =
      cfg.timeBudget + st.rolloverTime := rfl

/-- The month record's total money budget. -/
theorem stepMonth_moneyBudgetTotal (cfg : Config) (edges : List (String × String))
    (rng : ℕ → ℚ) (month : ℤ) (st : SimState) :
    (stepMonth cfg edges rng month st).1.moneyBudgetTotal =
      cfg.moneyBudget + st.rolloverMoney := rfl

/-- The successor state's task backlog. -/
theorem stepMonth_state_tasks (cfg : Config) (edges : List (String × String))
    (rng : ℕ → ℚ) (month : ℤ) (st : SimState) :
    (stepMonth cfg edges rng month st).2.tasks =
      updateTasksAfterMonth month (monthSchedule cfg edges month st).executed
        (monthSchedule cfg edges month st).deferred st.tasks := rfl

/-- The successor state's nodes. -/
theorem stepMonth_state_nodes (cfg : Config) (edges : List (String × String))
    (rng : ℕ → ℚ) (month : ℤ) (st : SimState) :
    (stepMonth cfg edges rng month st).2.nodes =
      (monthNodes cfg edges month st).map (fun n =>
        applyDeferredToNode (monthSchedule cfg edges month st).deferred
          (applyExecutedToNode (monthSchedule cfg edges month st).executed n)) := rfl

/-- The successor state's time rollover. -/
theorem stepMonth_state_rolloverTime (cfg : Config) (edges : List (String × String))
    (rng : ℕ → ℚ) (month : ℤ) (st : SimState) :
    (stepMonth cfg edges rng month st).2.rolloverTime =
      (if cfg.enableRollover then
        cfg.timeBudget + st.rolloverTime -
          sumTimeCost (monthSchedule cfg edges month st).executed
      else 0) := rfl

/-- The successor state's money rollover. -/
theorem stepMonth_state_rolloverMoney (cfg : Config) (edges : List (String × String))
    (rng : ℕ → ℚ) (month : ℤ) (st : SimState) :
    (stepMonth cfg edges rng month st).2.rolloverMoney =
      (if cfg.enableRollover then
        cfg.moneyBudget + st.rolloverMoney -
          sumMoneyCost (monthSchedule cfg edges month st).executed
      else 0) := rfl

/-- Membership in a month's candidate list. -/
theorem mem_monthCandidates (month : ℤ) (st : SimState) (t : MaintTask) :
    t ∈ monthCandidates month st ↔ t ∈ st.tasks ∧ t.nextDueDate ≤ month := by
  simp [monthCandidates]

/-- A month's executed tasks cost at most the month's total budgets. -/
theorem monthSchedule_budget (cfg : Config) (edges : List (String × String))
    (month : ℤ) (st : SimState)
    (h1 : 0 ≤ cfg.timeBudget + st.rolloverTime)
    (h2 : 0 ≤ cfg.moneyBudget + st.rolloverMoney) :
    sumTimeCost (monthSchedule cfg edges month st).executed ≤
      cfg.timeBudget + st.rolloverTime ∧
    sumMoneyCost (monthSchedule cfg edges month st).executed ≤
      cfg.moneyBudget + st.rolloverMoney := by
  rw [monthSchedule_def, scheduleMonth_executed]
  have h := greedy_budget_safe (cfg.timeBudget + st.rolloverTime)
    (cfg.moneyBudget + st.rolloverMoney)
    (sortCandidates (riskLookup (monthNodes cfg edges month st)) (monthCandidates month st))
    0 0 h1 h2
  constructor
  · linarith [h.1]
  · linarith [h.2]

/-- Budget invariant along the driver loop: with nonnegative monthly
allocations and nonnegative incoming rollover, every emitted record's
executed costs stay within that record's total budgets, and rollover
stays nonnegative. -/
theorem runSimAux_budget (cfg : Config) (edges : List (String × String))
    (rng : ℕ → ℚ) (hT : 0 ≤ cfg.timeBudget) (hM : 0 ≤ cfg.moneyBudget) :
    ∀ (k : ℕ) (month : ℤ) (st : SimState),
      0 ≤ st.rolloverTime → 0 ≤ st.rolloverMoney →
      ∀ r ∈ runSimAux cfg edges rng k month st,
        sumTimeCost r.executedTasks ≤ r.timeBudgetTotal ∧
        sumMoneyCost r.executedTasks ≤ r.moneyBudgetTotal := by
  intro k
  induction k with
  | zero => intro month st _ _ r hr; cases hr
  | succ k ih =>
    intro month st hrt hrm r hr
    have h1 : 0 ≤ cfg.timeBudget + st.rolloverTime := by linarith
    have h2 : 0 ≤ cfg.moneyBudget + st.rolloverMoney := by linarith
    have hbud := monthSchedule_budget cfg edges month st h1 h2
    rcases List.mem_cons.mp hr with hhead | htail
    · subst hhead
      rw [stepMonth_executedTasks, stepMonth_timeBudgetTotal, stepMonth_moneyBudgetTotal]
      exact hbud
    · refine ih (month + 1) (stepMonth cfg edges rng month st).2 ?_ ?_ r htail
      · rw [stepMonth_state_rolloverTime]
        by_cases he : cfg.enableRollover
        · rw [if_pos he]; linarith [hbud.1]
        · rw [if_neg he]
      · rw [stepMonth_state_rolloverMoney]
        by_cases he : cfg.enableRollover
        · rw [if_pos he]; linarith [hbud.2]
        · rw [if_neg he]

/-- C1: in every simulated month, the total `time_cost` of the tasks
executed that month is at most the month's available time budget
(monthly allocation plus rollover), and the total `money_cost` of the
executed tasks is at most the month's available money budget. -/
theorem executed_costs_within_monthly_budgets (cfg : Config)
    (edges : List (String × String)) (seed : ℕ) (months : ℕ) (startMonth : ℤ)
    (nodes : List EquipNode) (tasks : List MaintTask)
    (hT : 0 ≤ cfg.timeBudget) (hM : 0 ≤ cfg.moneyBudget) :
    ∀ r ∈ runSimulation cfg edges seed months startMonth nodes tasks,
      sumTimeCost r.executedTasks ≤ r.timeBudgetTotal ∧
      sumMoneyCost r.executedTasks ≤ r.moneyBudgetTotal := by
  intro r hr
  exact runSimAux_budget cfg edges (seedStream seed) hT hM months startMonth
    ⟨nodes, tasks, 0, 0, 0⟩ le_rfl le_rfl r hr

/-- Task instance ids are pairwise distinct (instance ids are unique by
construction: template id concatenated with equipment id). -/
def distinctIds (l : List MaintTask) : Prop :=
  l.Pairwise (fun a b => a.taskInstanceId ≠ b.taskInstanceId)

/-- Distinct instance ids imply a duplicate-free task list. -/
theorem distinctIds_nodup {l : List MaintTask} (h : distinctIds l) : l.Nodup :=
  h.imp (fun hne heq => hne (by rw [heq]))

/-- The per-task outcome update applied by `updateTasksAfterMonth`. -/
def taskOutcomeUpdate (month : ℤ) (executed deferred : List MaintTask)
    (u : MaintTask) : MaintTask :=
  if u ∈ executed then execUpdateTask month u
  else if u ∈ deferred then deferUpdateTask u
  else u

/-- `updateTasksAfterMonth` is the map of the per-task update. -/
theorem updateTasksAfterMonth_eq (month : ℤ) (executed deferred tasks : List MaintTask) :
    updateTasksAfterMonth month executed deferred tasks =
      tasks.map (taskOutcomeUpdate month executed deferred) := rfl

/-- The outcome update never changes a task's instance id. -/
theorem taskOutcomeUpdate_id (month : ℤ) (executed deferred : List MaintTask)
    (u : MaintTask) :
    (taskOutcomeUpdate month executed deferred u).taskInstanceId = u.taskInstanceId := by
  unfold taskOutcomeUpdate
  split_ifs <;> rfl

/-- The outcome update never changes a task's time cost. -/
theorem taskOutcomeUpdate_timeCost (month : ℤ) (executed deferred : List MaintTask)
    (u : MaintTask) :
    (taskOutcomeUpdate month executed deferred u).timeCost = u.timeCost := by
  unfold taskOutcomeUpdate
  split_ifs <;> rfl

/-- The outcome update never changes a task's money cost. -/
theorem taskOutcomeUpdate_moneyCost (month : ℤ) (executed deferred : List MaintTask)
    (u : MaintTask) :
    (taskOutcomeUpdate month executed deferred u).moneyCost = u.moneyCost := by
  unfold taskOutcomeUpdate
  split_ifs <;> rfl

/-- The monthly task update preserves distinctness of instance ids. -/
theorem distinctIds_updateTasks (month : ℤ) (executed deferred tasks : List MaintTask)
    (h : distinctIds tasks) :
    distinctIds (updateTasksAfterMonth month executed deferred tasks) := by
  rw [updateTasksAfterMonth_eq]
  exact List.pairwise_map.mpr (h.imp (fun hne => by
    rwa [taskOutcomeUpdate_id, taskOutcomeUpdate_id]))

/-- Candidate lists inherit distinct ids from the backlog. -/
theorem distinctIds_monthCandidates (month : ℤ) (st : SimState)
    (h : distinctIds st.tasks) : distinctIds (monthCandidates month st) :=
  List.Pairwise.sublist (List.filter_sublist _) h

/-- The scheduled list of a month has no duplicates when the backlog
has distinct instance ids. -/
theorem monthSchedule_scheduled_nodup (cfg : Config) (edges : List (String × String))
    (month : ℤ) (st : SimState) (h : distinctIds st.tasks) :
    (monthSchedule cfg edges month st).scheduled.Nodup := by
  rw [monthSchedule_def, scheduleMonth_scheduled]
  exact (List.perm_insertionSort _ _).symm.nodup
    (distinctIds_nodup (distinctIds_monthCandidates month st h))

/-- Exclusive outcomes along the driver loop. -/
theorem runSimAux_outcome_xor (cfg : Config) (edges : List (String × String))
    (rng : ℕ → ℚ) :
    ∀ (k : ℕ) (month : ℤ) (st : SimState), distinctIds st.tasks →
      ∀ r ∈ runSimAux cfg edges rng k month st, ∀ t ∈ r.tasksScheduled,
        (t ∈ r.executedTasks ∧ t ∉ r.deferredTasks) ∨
        (t ∉ r.executedTasks ∧ t ∈ r.deferredTasks) := by
  intro k
  induction k with
  | zero => intro month st _ r hr; cases hr
  | succ k ih =>
    intro month st hids r hr
    rcases List.mem_cons.mp hr with hhead | htail
    · subst hhead
      intro t ht
      rw [stepMonth_tasksScheduled] at ht
      rw [stepMonth_executedTasks, stepMonth_deferredTasks]
      rw [monthSchedule_def] at ht ⊢
      exact scheduleMonth_executed_xor_deferred _ _ _ _
        (monthSchedule_scheduled_nodup cfg edges month st hids) t ht
    · refine ih (month + 1) (stepMonth cfg edges rng month st).2 ?_ r htail
      rw [stepMonth_state_tasks]
      exact distinctIds_updateTasks _ _ _ _ hids

/-- C5: in every simulated month, every task in that month's
`tasks_scheduled` list ends the month with exactly one of the two
outcomes: it is executed and not deferred, or deferred and not
executed (execution is atomic). -/
theorem scheduled_task_exactly_one_outcome (cfg : Config)
    (edges : List (String × String)) (seed : ℕ) (months : ℕ) (startMonth : ℤ)
    (nodes : List EquipNode) (tasks : List MaintTask)
    (hids : distinctIds tasks) :
    ∀ r ∈ runSimulation cfg edges seed months startMonth nodes tasks,
      ∀ t ∈ r.tasksScheduled,
        (t ∈ r.executedTasks ∧ t ∉ r.deferredTasks) ∨
        (t ∉ r.executedTasks ∧ t ∈ r.deferredTasks) := by
  intro r hr
  exact runSimAux_outcome_xor cfg edges (seedStream seed) months startMonth
    ⟨nodes, tasks, 0, 0, 0⟩ hids r hr

/-- The RUL floor (§4.2 step 5): computed RUL never falls below
`MIN_RUL_RATIO × expected_lifespan`. -/
theorem computeRulYears_floor (cfg : Config) (lifespan elapsed condition : ℚ)
    (dc oc : ℕ) :
    cfg.minRulRatio * lifespan ≤ computeRulYears cfg lifespan elapsed condition dc oc := by
  unfold computeRulYears
  exact le_max_right _ _

/-- The RUL update does not change a node's type. -/
theorem updateNodeRul_etype (cfg : Config) (tasks : List MaintTask) (month : ℤ)
    (n : EquipNode) : (updateNodeRul cfg tasks month n).etype = n.etype := by
  unfold updateNodeRul
  split <;> rfl

/-- The RUL update does not change a node's condition. -/
theorem updateNodeRul_currentCondition (cfg : Config) (tasks : List MaintTask)
    (month : ℤ) (n : EquipNode) :
    (updateNodeRul cfg tasks month n).currentCondition = n.currentCondition := by
  unfold updateNodeRul
  split <;> rfl

/-- The RUL update does not change a node's expected lifespan. -/
theorem updateNodeRul_expectedLifespan (cfg : Config) (tasks : List MaintTask)
    (month : ℤ) (n : EquipNode) :
    (updateNodeRul cfg tasks month n).expectedLifespan = n.expectedLifespan := by
  unfold updateNodeRul
  split <;> rfl

/-- The RUL update does not change a node's identifier. -/
theorem updateNodeRul_nid (cfg : Config) (tasks : List MaintTask) (month : ℤ)
    (n : EquipNode) : (updateNodeRul cfg tasks month n).nid = n.nid := by
  unfold updateNodeRul
  split <;> rfl

/-- The RUL update does not change a node's deferred-task count. -/
theorem updateNodeRul_deferredTaskCount (cfg : Config) (tasks : List MaintTask)
    (month : ℤ) (n : EquipNode) :
    (updateNodeRul cfg tasks month n).deferredTaskCount = n.deferredTaskCount := by
  unfold updateNodeRul
  split <;> rfl

/-- For a non-ignored node the updated RUL honors the floor. -/
theorem updateNodeRul_floor (cfg : Config) (tasks : List MaintTask) (month : ℤ)
    (n : EquipNode) (h : n.etype ∉ cfg.typesToIgnore) :
    cfg.minRulRatio * n.expectedLifespan ≤ (updateNodeRul cfg tasks month n).rulYears := by
  unfold updateNodeRul
  rw [if_neg h]
  exact computeRulYears_floor cfg n.expectedLifespan _ _ _ _

/-- Clamped conditions lie in the unit interval. -/
theorem clamp01_bounds (x : ℚ) : 0 ≤ clamp01 x ∧ clamp01 x ≤ 1 := by
  unfold clamp01
  exact ⟨le_min (by norm_num) (le_max_left 0 x), min_le_left _ _⟩

/-- The condition-improvement fold keeps the condition in `[0, 1]`. -/
theorem condition_fold_bounds (v : String) (l : List MaintTask) :
    ∀ c : ℚ, 0 ≤ c → c ≤ 1 →
      0 ≤ l.foldl (fun c t =>
        if t.equipmentId = v then clamp01 (c + t.conditionImprovement) else c) c ∧
      l.foldl (fun c t =>
        if t.equipmentId = v then clamp01 (c + t.conditionImprovement) else c) c ≤ 1 := by
  induction l with
  | nil => intro c h0 h1; exact ⟨h0, h1⟩
  | cons t l ih =>
    intro c h0 h1
    rw [List.foldl_cons]
    by_cases he : t.equipmentId = v
    · rw [if_pos he]
      exact ih _ (clamp01_bounds _).1 (clamp01_bounds _).2
    · rw [if_neg he]
      exact ih c h0 h1

/-- Node effects preserve the condition bounds. -/
theorem applyEffects_condition_bounds (executed deferred : List MaintTask)
    (n : EquipNode) (h0 : 0 ≤ n.currentCondition) (h1 : n.currentCondition ≤ 1) :
    0 ≤ (applyDeferredToNode deferred (applyExecutedToNode executed n)).currentCondition ∧
    (applyDeferredToNode deferred (applyExecutedToNode executed n)).currentCondition ≤ 1 := by
  have hc : (applyDeferredToNode deferred (applyExecutedToNode executed n)).currentCondition =
      executed.foldl (fun c t =>
        if t.equipmentId = n.nid then clamp01 (c + t.conditionImprovement) else c)
        n.currentCondition := rfl
  rw [hc]
  exact condition_fold_bounds n.nid executed n.currentCondition h0 h1

/-- C3: after any monthly update, every node's `current_condition`
still lies in `[0, 1]` (given it did before the month), and every node
whose type is not in `TYPES_TO_IGNORE` has
`rul_years ≥ MIN_RUL_RATIO × expected_lifespan`. -/
theorem monthly_update_condition_and_rul (cfg : Config)
    (edges : List (String × String)) (rng : ℕ → ℚ) (month : ℤ) (st : SimState)
    (hcond : ∀ n ∈ st.nodes, 0 ≤ n.currentCondition ∧ n.currentCondition ≤ 1) :
    ∀ n ∈ (stepMonth cfg edges rng month st).2.nodes,
      (0 ≤ n.currentCondition ∧ n.currentCondition ≤ 1) ∧
      (n.etype ∉ cfg.typesToIgnore →
        cfg.minRulRatio * n.expectedLifespan ≤ n.rulYears) := by
  intro n hn
  rw [stepMonth_state_nodes] at hn
  obtain ⟨n2, hn2, rfl⟩ := List.mem_map.mp hn
  have hn2' : n2 ∈ riskPhase edges (rulPhase cfg month st) := hn2
  obtain ⟨n1, hn1, rfl⟩ := List.mem_map.mp hn2'
  obtain ⟨n0, hn0, rfl⟩ := List.mem_map.mp hn1
  set exs := (monthSchedule cfg edges month st).executed
  set dfs := (monthSchedule cfg edges month st).deferred
  set nr := updateNodeRul cfg st.tasks month n0 with hnr
  have hriskcond : ({ nr with
      riskScore := (riskScoreOf ⟨rulPhase cfg month st, edges⟩ nr).getD nr.riskScore
      : EquipNode }).currentCondition = n0.currentCondition := by
    show nr.currentCondition = n0.currentCondition
    exact updateNodeRul_currentCondition cfg st.tasks month n0
  constructor
  · have hb := hcond n0 hn0
    have := applyEffects_condition_bounds exs dfs
      ({ nr with riskScore := (riskScoreOf ⟨rulPhase cfg month st, edges⟩ nr).getD nr.riskScore })
      (by rw [hriskcond]; exact hb.1) (by rw [hriskcond]; exact hb.2)
    exact this
  · intro hig
    have hety : (applyDeferredToNode dfs (applyExecutedToNode exs
        ({ nr with riskScore := (riskScoreOf ⟨rulPhase cfg month st, edges⟩ nr).getD nr.riskScore
          : EquipNode }))).etype = n0.etype := by
      show nr.etype = n0.etype
      exact updateNodeRul_etype cfg st.tasks month n0
    have hlif : (applyDeferredToNode dfs (applyExecutedToNode exs
        ({ nr with riskScore := (riskScoreOf ⟨rulPhase cfg month st, edges⟩ nr).getD nr.riskScore
          : EquipNode }))).expectedLifespan = n0.expectedLifespan := by
      show nr.expectedLifespan = n0.expectedLifespan
      exact updateNodeRul_expectedLifespan cfg st.tasks month n0
    have hrul : (applyDeferredToNode dfs (applyExecutedToNode exs
        ({ nr with riskScore := (riskScoreOf ⟨rulPhase cfg month st, edges⟩ nr).getD nr.riskScore
          : EquipNode }))).rulYears = nr.rulYears := rfl
    rw [hety] at hig
    rw [hlif, hrul]
    exact updateNodeRul_floor cfg st.tasks month n0 hig

/-- Deferral increments the deferred count. -/
theorem deferUpdateTask_deferredCount (t : MaintTask) :
    (deferUpdateTask t).deferredCount = t.deferredCount + 1 := rfl

/-- Deferral leaves the due date unchanged. -/
theorem deferUpdateTask_nextDueDate (t : MaintTask) :
    (deferUpdateTask t).nextDueDate = t.nextDueDate := rfl

/-- C6: when a task is deferred in a month, the backlog carries it
forward with `deferred_count` incremented and `next_due_date`
unchanged, it re-enters the next month's candidate list, and the
owning node's `deferred_task_count` grows by the number of its deferred
tasks — in particular by at least one. -/
theorem deferred_task_effects (cfg : Config) (edges : List (String × String))
    (rng : ℕ → ℚ) (month : ℤ) (st : SimState) (t : MaintTask)
    (hids : distinctIds st.tasks)
    (ht : t ∈ (stepMonth cfg edges rng month st).1.deferredTasks) :
    (deferUpdateTask t).deferredCount = t.deferredCount + 1 ∧
    (deferUpdateTask t).nextDueDate = t.nextDueDate ∧
    deferUpdateTask t ∈ (stepMonth cfg edges rng month st).2.tasks ∧
    deferUpdateTask t ∈ monthCandidates (month + 1) (stepMonth cfg edges rng month st).2 ∧
    ∀ nd ∈ st.nodes, nd.nid = t.equipmentId →
      ∃ nd2 ∈ (stepMonth cfg edges rng month st).2.nodes,
        nd2.nid = nd.nid ∧
        nd2.deferredTaskCount = nd.deferredTaskCount +
          ((stepMonth cfg edges rng month st).1.deferredTasks.filter
            (fun s => s.equipmentId == nd.nid)).length ∧
        nd.deferredTaskCount + 1 ≤ nd2.deferredTaskCount := by
  rw [stepMonth_deferredTasks] at ht
  have hcand : t ∈ monthCandidates month st := by
    rw [monthSchedule_def] at ht
    exact mem_deferred_mem_cands _ _ _ _ t ht
  have hmem := (mem_monthCandidates month st t).mp hcand
  have hsched : t ∈ (monthSchedule cfg edges month st).scheduled := by
    rw [monthSchedule_def] at ht ⊢
    exact (scheduleMonth_partition _ _ _ _).subset (List.mem_append.mpr (Or.inr ht))
  have hnodup := monthSchedule_scheduled_nodup cfg edges month st hids
  have hnex : t ∉ (monthSchedule cfg edges month st).executed := by
    rw [monthSchedule_def] at ht hsched hnodup ⊢
    rcases scheduleMonth_executed_xor_deferred _ _ _ _ hnodup t hsched with h1 | h2
    · exact absurd ht h1.2
    · exact h2.1
  have hupd : taskOutcomeUpdate month (monthSchedule cfg edges month st).executed
      (monthSchedule cfg edges month st).deferred t = deferUpdateTask t := by
    unfold taskOutcomeUpdate
    rw [if_neg hnex, if_pos ht]
  have hmem2 : deferUpdateTask t ∈ (stepMonth cfg edges rng month st).2.tasks := by
    rw [stepMonth_state_tasks, updateTasksAfterMonth_eq]
    exact hupd ▸ List.mem_map_of_mem _ hmem.1
  refine ⟨rfl, rfl, hmem2, ?_, ?_⟩
  · rw [mem_monthCandidates]
    refine ⟨hmem2, ?_⟩
    rw [deferUpdateTask_nextDueDate]
    have := hmem.2
    omega
  · intro nd hnd0 heq
    refine ⟨applyDeferredToNode (monthSchedule cfg edges month st).deferred
      (applyExecutedToNode (monthSchedule cfg edges month st).executed
        ({ updateNodeRul cfg st.tasks month nd with
          riskScore := (riskScoreOf ⟨rulPhase cfg month st, edges⟩
            (updateNodeRul cfg st.tasks month nd)).getD
              (updateNodeRul cfg st.tasks month nd).riskScore })), ?_, ?_, ?_⟩
    · rw [stepMonth_state_nodes]
      refine List.mem_map_of_mem _ ?_
      show _ ∈ riskPhase edges (rulPhase cfg month st)
      exact List.mem_map_of_mem _ (List.mem_map_of_mem _ hnd0)
    · show (updateNodeRul cfg st.tasks month nd).nid = nd.nid
      exact updateNodeRul_nid cfg st.tasks month nd
    · have hnid : (applyExecutedToNode (monthSchedule cfg edges month st).executed
          ({ updateNodeRul cfg st.tasks month nd with
            riskScore := (riskScoreOf ⟨rulPhase cfg month st, edges⟩
              (updateNodeRul cfg st.tasks month nd)).getD
                (updateNodeRul cfg st.tasks month nd).riskScore })).nid = nd.nid := by
        show (updateNodeRul cfg st.tasks month nd).nid = nd.nid
        exact updateNodeRul_nid cfg st.tasks month nd
      have hcount : (applyDeferredToNode (monthSchedule cfg edges month st).deferred
          (applyExecutedToNode (monthSchedule cfg edges month st).executed
            ({ updateNodeRul cfg st.tasks month nd with
              riskScore := (riskScoreOf ⟨rulPhase cfg month st, edges⟩
                (updateNodeRul cfg st.tasks month nd)).getD
                  (updateNodeRul cfg st.tasks month nd).riskScore }))).deferredTaskCount =
          (updateNodeRul cfg st.tasks month nd).deferredTaskCount +
          ((monthSchedule cfg edges month st).deferred.filter
            (fun s => s.equipmentId == (applyExecutedToNode
              (monthSchedule cfg edges month st).executed
              ({ updateNodeRul cfg st.tasks month nd with
                riskScore := (riskScoreOf ⟨rulPhase cfg month st, edges⟩
                  (updateNodeRul cfg st.tasks month nd)).getD
                    (updateNodeRul cfg st.tasks month nd).riskScore })).nid)).length := rfl
      rw [hcount, hnid, updateNodeRul_deferredTaskCount]
      have hfilt : t ∈ (monthSchedule cfg edges month st).deferred.filter
          (fun s => s.equipmentId == nd.nid) :=
        List.mem_filter.mpr ⟨ht, by rw [heq]; exact beq_self_eq_true _⟩
      have hlen := List.length_pos_of_mem hfilt
      constructor
      · rw [stepMonth_deferredTasks]
      · omega

/-- A list of tasks with nonnegative time costs has nonnegative total. -/
theorem sumTimeCost_nonneg (l : List MaintTask) (h : ∀ t ∈ l, 0 ≤ t.timeCost) :
    0 ≤ sumTimeCost l := by
  induction l with
  | nil => exact le_rfl
  | cons t l ih =>
    rw [sumTimeCost_cons]
    have h1 := h t (List.mem_cons_self t l)
    have h2 := ih (fun s hs => h s (List.mem_cons_of_mem t hs))
    linarith

/-- A list of tasks with nonnegative money costs has nonnegative total. -/
theorem sumMoneyCost_nonneg (l : List MaintTask) (h : ∀ t ∈ l, 0 ≤ t.moneyCost) :
    0 ≤ sumMoneyCost l := by
  induction l with
  | nil => exact le_rfl
  | cons t l ih =>
    rw [sumMoneyCost_cons]
    have h1 := h t (List.mem_cons_self t l)
    have h2 := ih (fun s hs => h s (List.mem_cons_of_mem t hs))
    linarith

/-- Every executed task of a month individually fits the month's total
budgets, when all backlog costs are nonnegative. -/
theorem monthSchedule_executed_cost_le (cfg : Config)
    (edges : List (String × String)) (month : ℤ) (st : SimState)
    (hcosts : ∀ u ∈ st.tasks, 0 ≤ u.timeCost ∧ 0 ≤ u.moneyCost) :
    ∀ e ∈ (monthSchedule cfg edges month st).executed,
      e.timeCost ≤ cfg.timeBudget + st.rolloverTime ∧
      e.moneyCost ≤ cfg.moneyBudget + st.rolloverMoney := by
  rw [monthSchedule_def, scheduleMonth_executed]
  intro e he
  refine mem_admitted_cost_le _ _ _ 0 0 ?_ le_rfl le_rfl e he
  intro u hu
  have hu2 : u ∈ monthCandidates month st := (List.perm_insertionSort _ _).subset hu
  exact hcosts u ((mem_monthCandidates month st u).mp hu2).1

/-- Every executed task of a month came from the backlog. -/
theorem monthSchedule_executed_mem_tasks (cfg : Config)
    (edges : List (String × String)) (month : ℤ) (st : SimState) (e : MaintTask)
    (he : e ∈ (monthSchedule cfg edges month st).executed) : e ∈ st.tasks := by
  rw [monthSchedule_def] at he
  exact ((mem_monthCandidates month st e).mp
    (mem_executed_mem_cands _ _ _ _ e he)).1

/-- Along the whole driver loop, a task whose time or money cost alone
exceeds `months × allocation` is deferred every month, never executed,
provided it is due, all costs are nonnegative and the allocations are
nonnegative.  The invariant threads a bound `c` on accumulated
rollover. -/
theorem runSimAux_oversized (cfg : Config) (edges : List (String × String))
    (rng : ℕ → ℚ) (tid : String) (months : ℕ)
    (hT : 0 ≤ cfg.timeBudget) (hM : 0 ≤ cfg.moneyBudget) :
    ∀ (k : ℕ) (month : ℤ) (st : SimState) (c : ℚ),
      0 ≤ c →
      c + (k : ℚ) ≤ (months : ℚ) →
      st.rolloverTime ≤ c * cfg.timeBudget →
      st.rolloverMoney ≤ c * cfg.moneyBudget →
      (∀ u ∈ st.tasks, 0 ≤ u.timeCost ∧ 0 ≤ u.moneyCost) →
      (∀ u ∈ st.tasks, u.taskInstanceId = tid →
        (months : ℚ) * cfg.timeBudget < u.timeCost ∨
        (months : ℚ) * cfg.moneyBudget < u.moneyCost) →
      (∃ u ∈ st.tasks, u.taskInstanceId = tid ∧ u.nextDueDate ≤ month) →
      ∀ r ∈ runSimAux cfg edges rng k month st,
        (∃ d ∈ r.deferredTasks, d.taskInstanceId = tid) ∧
        ∀ e ∈ r.executedTasks, e.taskInstanceId ≠ tid := by
  intro k
  induction k with
  | zero => intro month st c _ _ _ _ _ _ _ r hr; cases hr
  | succ k ih =>
    intro month st c hc hck hrt hrm hcosts hbig hdue
    have hck1 : c + 1 ≤ (months : ℚ) := by
      have : (0 : ℚ) ≤ (k : ℚ) := by positivity
      push_cast at hck
      linarith
    have htB : cfg.timeBudget + st.rolloverTime ≤ (months : ℚ) * cfg.timeBudget := by
      have h1 : cfg.timeBudget + st.rolloverTime ≤ (c + 1) * cfg.timeBudget := by
        have : (c + 1) * cfg.timeBudget = c * cfg.timeBudget + cfg.timeBudget := by ring
        linarith
      have h2 : (c + 1) * cfg.timeBudget ≤ (months : ℚ) * cfg.timeBudget :=
        mul_le_mul_of_nonneg_right hck1 hT
      linarith
    have hmB : cfg.moneyBudget + st.rolloverMoney ≤ (months : ℚ) * cfg.moneyBudget := by
      have h1 : cfg.moneyBudget + st.rolloverMoney ≤ (c + 1) * cfg.moneyBudget := by
        have : (c + 1) * cfg.moneyBudget = c * cfg.moneyBudget + cfg.moneyBudget := by ring
        linarith
      have h2 : (c + 1) * cfg.moneyBudget ≤ (months : ℚ) * cfg.moneyBudget :=
        mul_le_mul_of_nonneg_right hck1 hM
      linarith
    have hexec := monthSchedule_executed_cost_le cfg edges month st hcosts
    have hnoexec : ∀ e ∈ (monthSchedule cfg edges month st).executed,
        e.taskInstanceId ≠ tid := by
      intro e he hid
      have hetask : e ∈ st.tasks := monthSchedule_executed_mem_tasks cfg edges month st e he
      rcases hbig e hetask hid with hb | hb
      · linarith [(hexec e he).1]
      · linarith [(hexec e he).2]
    obtain ⟨u, hu, huid, hudue⟩ := hdue
    have hucand : u ∈ monthCandidates month st :=
      (mem_monthCandidates month st u).mpr ⟨hu, hudue⟩
    have husched : u ∈ (monthSchedule cfg edges month st).scheduled := by
      rw [monthSchedule_def, scheduleMonth_scheduled]
      exact (List.perm_insertionSort _ _).symm.subset hucand
    have hudef : u ∈ (monthSchedule cfg edges month st).deferred := by
      have := (monthSchedule_def cfg edges month st ▸
        scheduleMonth_partition (riskLookup (monthNodes cfg edges month st))
          (cfg.timeBudget + st.rolloverTime) (cfg.moneyBudget + st.rolloverMoney)
          (monthCandidates month st)).symm.subset husched
      rcases List.mem_append.mp this with h1 | h2
      · exact absurd huid (hnoexec u h1)
      · exact h2
    intro r hr
    rcases List.mem_cons.mp hr with hhead | htail
    · subst hhead
      constructor
      · exact ⟨u, by rw [stepMonth_deferredTasks]; exact hudef, huid⟩
      · intro e he
        rw [stepMonth_executedTasks] at he
        exact hnoexec e he
    · have hexecnn : ∀ e ∈ (monthSchedule cfg edges month st).executed, 0 ≤ e.timeCost :=
        fun e he => (hcosts e (monthSchedule_executed_mem_tasks cfg edges month st e he)).1
      have hexecnm : ∀ e ∈ (monthSchedule cfg edges month st).executed, 0 ≤ e.moneyCost :=
        fun e he => (hcosts e (monthSchedule_executed_mem_tasks cfg edges month st e he)).2
      have hspentT := sumTimeCost_nonneg _ hexecnn
      have hspentM := sumMoneyCost_nonneg _ hexecnm
      refine ih (month + 1) (stepMonth cfg edges rng month st).2 (c + 1)
        (by linarith) (by push_cast at hck ⊢; linarith) ?_ ?_ ?_ ?_ ?_ r htail
      · rw [stepMonth_state_rolloverTime]
        by_cases he : cfg.enableRollover
        · rw [if_pos he]
          have : (c + 1) * cfg.timeBudget = c * cfg.timeBudget + cfg.timeBudget := by ring
          linarith
        · rw [if_neg he]
          positivity
      · rw [stepMonth_state_rolloverMoney]
        by_cases he : cfg.enableRollover
        · rw [if_pos he]
          have : (c + 1) * cfg.moneyBudget = c * cfg.moneyBudget + cfg.moneyBudget := by ring
          linarith
        · rw [if_neg he]
          positivity
      · intro v hv
        rw [stepMonth_state_tasks, updateTasksAfterMonth_eq] at hv
        obtain ⟨w, hw, rfl⟩ := List.mem_map.mp hv
        rw [taskOutcomeUpdate_timeCost, taskOutcomeUpdate_moneyCost]
        exact hcosts w hw
      · intro v hv hvid
        rw [stepMonth_state_tasks, updateTasksAfterMonth_eq] at hv
        obtain ⟨w, hw, rfl⟩ := List.mem_map.mp hv
        rw [taskOutcomeUpdate_id] at hvid
        rw [taskOutcomeUpdate_timeCost, taskOutcomeUpdate_moneyCost]
        exact hbig w hw hvid
      · refine ⟨taskOutcomeUpdate month (monthSchedule cfg edges month st).executed
          (monthSchedule cfg edges month st).deferred u, ?_, ?_, ?_⟩
        · rw [stepMonth_state_tasks, updateTasksAfterMonth_eq]
          exact List.mem_map_of_mem _ hu
        · rw [taskOutcomeUpdate_id]
          exact huid
        · have hunoex : u ∉ (monthSchedule cfg edges month st).executed :=
            fun hcontra => hnoexec u hcontra huid
          have : taskOutcomeUpdate month (monthSchedule cfg edges month st).executed
              (monthSchedule cfg edges month st).deferred u = deferUpdateTask u := by
            unfold taskOutcomeUpdate
            rw [if_neg hunoex, if_pos hudef]
          rw [this, deferUpdateTask_nextDueDate]
          omega

/-- C9: a task whose `time_cost` or `money_cost` alone exceeds the
largest budget any month can offer (`months × allocation`, i.e. the
allocation plus the maximum possible accumulated rollover over the
simulated horizon) appears in every month's `deferred_tasks` list and
never in `executed_tasks` — it is reported as permanently deferred, not
silently dropped. -/
theorem oversized_task_permanently_deferred (cfg : Config)
    (edges : List (String × String)) (seed : ℕ) (months : ℕ) (startMonth : ℤ)
    (nodes : List EquipNode) (tasks : List MaintTask) (tid : String)
    (hT : 0 ≤ cfg.timeBudget) (hM : 0 ≤ cfg.moneyBudget)
    (hcosts : ∀ u ∈ tasks, 0 ≤ u.timeCost ∧ 0 ≤ u.moneyCost)
    (hbig : ∀ u ∈ tasks, u.taskInstanceId = tid →
      (months : ℚ) * cfg.timeBudget < u.timeCost ∨
      (months : ℚ) * cfg.moneyBudget < u.moneyCost)
    (hdue : ∃ u ∈ tasks, u.taskInstanceId = tid ∧ u.nextDueDate ≤ startMonth) :
    ∀ r ∈ runSimulation cfg edges seed months startMonth nodes tasks,
      (∃ d ∈ r.deferredTasks, d.taskInstanceId = tid) ∧
      ∀ e ∈ r.executedTasks, e.taskInstanceId ≠ tid := by
  intro r hr
  exact runSimAux_oversized cfg edges (seedStream seed) tid months hT hM months
    startMonth ⟨nodes, tasks, 0, 0, 0⟩ 0 le_rfl (by simp) (by simp) (by simp)
    hcosts hbig hdue r hr

/-- C8: the simulation is deterministic under a fixed seed — any two
random streams selected by the same seed produce identical per-month
records, and they agree with the seeded entry point (the stochastic
synthetic-log source is injected, never ambient). -/
theorem simulation_deterministic_under_fixed_seed (cfg : Config)
    (edges : List (String × String)) (months : ℕ) (startMonth : ℤ)
    (nodes : List EquipNode) (tasks : List MaintTask) (seed : ℕ)
    (r1 r2 : ℕ → ℚ) (h1 : r1 = seedStream seed) (h2 : r2 = seedStream seed) :
    runSimulationWith r1 cfg edges months startMonth nodes tasks =
      runSimulationWith r2 cfg edges months startMonth nodes tasks ∧
    runSimulationWith r1 cfg edges months startMonth nodes tasks =
      runSimulation cfg edges seed months startMonth nodes tasks := by
  subst h1
  subst h2
  exact ⟨rfl, rfl⟩

/-- A small concrete configuration for witnesses. -/
def cfgW : Config :=
  { timeBudget := 5, moneyBudget := 5, enableRollover := true,
    taskDefermentFactor := 1, overdueImpactMultiplier := 2,
    agingAccelerationFactor := 1 / 100, maxAgingMultiplier := 3,
    minRulRatio := 1 / 10, criticalRulThresholdYears := 1,
    highRulThresholdYears := 3, mediumRulThresholdYears := 5,
    typesToIgnore := [] }

/-- A zero-budget configuration (everything defers). -/
def cfgZero : Config :=
  { timeBudget := 0, moneyBudget := 0, enableRollover := false,
    taskDefermentFactor := 1, overdueImpactMultiplier := 2,
    agingAccelerationFactor := 0, maxAgingMultiplier := 3,
    minRulRatio := 1 / 10, criticalRulThresholdYears := 1,
    highRulThresholdYears := 3, mediumRulThresholdYears := 5,
    typesToIgnore := [] }

/-- A unit-budget configuration. -/
def cfgOne : Config :=
  { timeBudget := 1, moneyBudget := 1, enableRollover := true,
    taskDefermentFactor := 1, overdueImpactMultiplier := 2,
    agingAccelerationFactor := 0, maxAgingMultiplier := 3,
    minRulRatio := 1 / 10, criticalRulThresholdYears := 1,
    highRulThresholdYears := 3, mediumRulThresholdYears := 5,
    typesToIgnore := [] }

/-- A concrete recurring maintenance task bound to node `MP0`. -/
def taskW : MaintTask :=
  { taskInstanceId := "P-01-MP0", equipmentId := "MP0", priority := 2,
    timeCost := 1, moneyCost := 2, isReplacement := false,
    nextDueDate := 0, deferredCount := 0, frequencyMonths := 4,
    conditionImprovement := 1 / 20 }

/-- A concrete task whose costs dwarf any monthly budget. -/
def taskBig : MaintTask :=
  { taskInstanceId := "TBIG", equipmentId := "MP0", priority := 1,
    timeCost := 100, moneyCost := 100, isReplacement := false,
    nextDueDate := 0, deferredCount := 0, frequencyMonths := 12,
    conditionImprovement := 0 }

/-- A concrete panelboard node. -/
def nodeW : EquipNode :=
  { nid := "MP0", etype := "panelboard", propagated_power := some 5,
    currentCondition := 1, installMonth := -120, expectedLifespan := 20,
    deferredTaskCount := 0, riskScore := 0, rulYears := 20, riskLevel := "LOW" }

/-- A concrete simulation state used by witnesses. -/
def stW : SimState := ⟨[nodeW], [taskW], 0, 0, 0⟩

/-- Witness for C1: the first record of a concrete one-month run. -/
theorem executed_costs_within_monthly_budgets_witness :
    sumTimeCost (stepMonth cfgW [] (seedStream 42) 0 stW).1.executedTasks ≤
      (stepMonth cfgW [] (seedStream 42) 0 stW).1.timeBudgetTotal ∧
    sumMoneyCost (stepMonth cfgW [] (seedStream 42) 0 stW).1.executedTasks ≤
      (stepMonth cfgW [] (seedStream 42) 0 stW).1.moneyBudgetTotal :=
  executed_costs_within_monthly_budgets cfgW [] 42 1 0 [nodeW] [taskW]
    (by decide) (by decide) (stepMonth cfgW [] (seedStream 42) 0 stW).1
    (List.mem_cons_self _ _)

instance : Inhabited EquipNode := ⟨nodeW⟩

/-- Witness for C3: the first node after a concrete month step. -/
theorem monthly_update_condition_and_rul_witness :
    (0 ≤ ((stepMonth cfgW [] (seedStream 1) 0 stW).2.nodes.headI).currentCondition ∧
      ((stepMonth cfgW [] (seedStream 1) 0 stW).2.nodes.headI).currentCondition ≤ 1) ∧
    (((stepMonth cfgW [] (seedStream 1) 0 stW).2.nodes.headI).etype ∉ cfgW.typesToIgnore →
      cfgW.minRulRatio *
        ((stepMonth cfgW [] (seedStream 1) 0 stW).2.nodes.headI).expectedLifespan ≤
        ((stepMonth cfgW [] (seedStream 1) 0 stW).2.nodes.headI).rulYears) :=
  monthly_update_condition_and_rul cfgW [] (seedStream 1) 0 stW (by decide)
    ((stepMonth cfgW [] (seedStream 1) 0 stW).2.nodes.headI)
    (List.mem_cons_self _ _)

/-- Witness for C5: the concrete task of a one-month run is executed or
deferred but not both. -/
theorem scheduled_task_exactly_one_outcome_witness :
    (taskW ∈ (stepMonth cfgW [] (seedStream 42) 0 stW).1.executedTasks ∧
      taskW ∉ (stepMonth cfgW [] (seedStream 42) 0 stW).1.deferredTasks) ∨
    (taskW ∉ (stepMonth cfgW [] (seedStream 42) 0 stW).1.executedTasks ∧
      taskW ∈ (stepMonth cfgW [] (seedStream 42) 0 stW).1.deferredTasks) :=
  scheduled_task_exactly_one_outcome cfgW [] 42 1 0 [nodeW] [taskW]
    (by simp [distinctIds]) (stepMonth cfgW [] (seedStream 42) 0 stW).1
    (List.mem_cons_self _ _) taskW (List.mem_cons_self _ _)

/-- Witness for C6: with a zero budget the concrete task defers and all
the deferral effects hold at the concrete state. -/
theorem deferred_task_effects_witness :
    (deferUpdateTask taskW).deferredCount = taskW.deferredCount + 1 ∧
    (deferUpdateTask taskW).nextDueDate = taskW.nextDueDate ∧
    deferUpdateTask taskW ∈ (stepMonth cfgZero [] (seedStream 1) 0 stW).2.tasks ∧
    deferUpdateTask taskW ∈
      monthCandidates (0 + 1) (stepMonth cfgZero [] (seedStream 1) 0 stW).2 ∧
    ∀ nd ∈ stW.nodes, nd.nid = taskW.equipmentId →
      ∃ nd2 ∈ (stepMonth cfgZero [] (seedStream 1) 0 stW).2.nodes,
        nd2.nid = nd.nid ∧
        nd2.deferredTaskCount = nd.deferredTaskCount +
          ((stepMonth cfgZero [] (seedStream 1) 0 stW).1.deferredTasks.filter
            (fun s => s.equipmentId == nd.nid)).length ∧
        nd.deferredTaskCount + 1 ≤ nd2.deferredTaskCount := by
  have ht : taskW ∈ (stepMonth cfgZero [] (seedStream 1) 0 stW).1.deferredTasks := by
    rw [stepMonth_deferredTasks, monthSchedule_def, scheduleMonth_deferred]
    have hcand : monthCandidates 0 stW = [taskW] := rfl
    rw [hcand]
    have hsort : sortCandidates (riskLookup (monthNodes cfgZero [] 0 stW)) [taskW] =
        [taskW] := rfl
    rw [hsort]
    have hg : greedyDecide (cfgZero.timeBudget + stW.rolloverTime)
        (cfgZero.moneyBudget + stW.rolloverMoney) [taskW] 0 0 = [(taskW, false)] := by
      norm_num [greedyDecide, taskW, cfgZero, stW]
    rw [hg, rejected_cons_false]
    exact List.mem_cons_self _ _
  exact deferred_task_effects cfgZero [] (seedStream 1) 0 stW taskW
    (by simp [distinctIds, stW]) ht

/-- A concrete simulation state holding the oversized task. -/
def stBig : SimState := ⟨[nodeW], [taskBig], 0, 0, 0⟩

/-- Witness for C9: in the first record of a concrete one-month run
with unit budgets the oversized task is deferred and never executed. -/
theorem oversized_task_permanently_deferred_witness :
    (∃ d ∈ (stepMonth cfgOne [] (seedStream 7) 0 stBig).1.deferredTasks,
      d.taskInstanceId = "TBIG") ∧
    ∀ e ∈ (stepMonth cfgOne [] (seedStream 7) 0 stBig).1.executedTasks,
      e.taskInstanceId ≠ "TBIG" :=
  oversized_task_permanently_deferred cfgOne [] 7 1 0 [nodeW] [taskBig] "TBIG"
    (by decide) (by decide) (by decide)
    (by
      intro u hu huid
      left
      rcases List.mem_singleton.mp hu with rfl
      norm_num [taskBig, cfgOne])
    ⟨taskBig, List.mem_singleton.mpr rfl, by decide, by decide⟩
    (stepMonth cfgOne [] (seedStream 7) 0 stBig).1 (List.mem_cons_self _ _)

/-- Witness for C8 on a concrete run with seed 3. -/
theorem simulation_deterministic_under_fixed_seed_witness :
    runSimulationWith (seedStream 3) cfgW [] 2 0 [nodeW] [taskW] =
      runSimulationWith (seedStream 3) cfgW [] 2 0 [nodeW] [taskW] ∧
    runSimulationWith (seedStream 3) cfgW [] 2 0 [nodeW] [taskW] =
      runSimulation cfgW [] 3 2 0 [nodeW] [taskW] :=
  simulation_deterministic_under_fixed_seed cfgW [] 2 0 [nodeW] [taskW] 3
    (seedStream 3) (seedStream 3) rfl rfl
